import Mathlib

/-!
Shallow embedding of `obp/dataset/synthetic_embed.py`
(`SyntheticBanditDatasetWithActionEmbeds`), the synthetic logged-bandit
data generator with action embeddings.

Modelling conventions:
* Machine floats become exact rationals (`ℚ`).
* The numpy `RandomState` owned by an instance becomes a deterministic
  stream: draw number `k` of the generator seeded with `seed` is a fixed
  computable rational `unitVal seed k` (uniform draws), `stdNormal seed k`
  (normal draws), `gumbelVal seed k` (Gumbel draws).  The instance keeps a
  draw counter; each sampling step consumes a documented number of draws,
  in the order the Python code performs them.
* `np.exp` is modelled by a computable strictly positive function `expQ`;
  every property proved below depends on the exponential only through
  strict positivity.
* Arrays indexed by rounds/actions/categories/dimensions become functions
  out of `Fin`; the returned feedback bundle uses plain lists so that
  shapes and bit-identity of outputs are observable facts.
-/

deriving instance DecidableEq for Except

set_option allowUnsafeReducibility true
attribute [semireducible] Rat.mul Rat.inv Rat.add Rat.sub Rat.neg

namespace SyntheticEmbed

/-- The two reward types of `RewardType` (external 2-valued enumeration). -/
inductive RewardType where
  | binary : RewardType
  | continuous : RewardType
deriving DecidableEq, Repr, Inhabited

/-- Deterministic scrambling of (seed, draw index) into `[0, 104729)`;
the basis of the pseudo-random stream model. -/
def mix (seed : ℤ) (k : ℕ) : ℕ :=
  (seed.natAbs * 48271 + k * 16807 + 7919) % 104729

/-- Draw number `k` of the uniform-on-`[0,1)` stream of the generator
seeded with `seed` (models `RandomState.uniform`). -/
def unitVal (seed : ℤ) (k : ℕ) : ℚ :=
  (mix seed k : ℚ) / 104729

/-- Draw number `k` of the standard-normal stream of the generator seeded
with `seed` (models `RandomState.normal`). -/
def stdNormal (seed : ℤ) (k : ℕ) : ℚ :=
  6 * unitVal seed k - 3

/-- Draw number `k` of the Gumbel stream of the generator seeded with
`seed` (models `RandomState.gumbel`); only its ordering is ever used. -/
def gumbelVal (seed : ℤ) (k : ℕ) : ℚ :=
  1 - 2 * unitVal seed k

/-- A draw of `RandomState.normal(loc, scale)`: location plus scale times
a standard-normal stream value. -/
def normalDraw (loc scale : ℚ) (seed : ℤ) (k : ℕ) : ℚ :=
  loc + scale * stdNormal seed k

/-- A draw of `RandomState.binomial(n=1, p)`: `1` when the underlying
uniform draw falls below `p`, else `0`. -/
def binomialOneDraw (p : ℚ) (seed : ℤ) (k : ℕ) : ℚ :=
  if unitVal seed k < p then 1 else 0

/-- Modelled from the spec: the exponential used by the softmax of
`obp.utils` (repository code outside `src/`).  A computable strictly
positive stand-in; all theorems below use the exponential only through
its strict positivity. -/
def expQ (x : ℚ) : ℚ :=
  if 0 ≤ x then 1 + x else 1 / (1 - x)

/-- Modelled from the spec: `obp.utils.softmax` applied along one axis
(repository code outside `src/`): entry `a` of the softmax of the logit
vector `z`. -/
def softmax {n : ℕ} (z : Fin n → ℚ) (a : Fin n) : ℚ :=
  expQ (z a) / ∑ b, expQ (z b)

/-- Partial sums of a probability row: `cumsum p i` is the numpy
`p.cumsum()` at index `i`. -/
def cumsum {n : ℕ} (p : Fin n → ℚ) (i : Fin n) : ℚ :=
  ∑ j ∈ Finset.univ.filter (fun j => j ≤ i), p j

/-- Inverse-CDF selection of one index from a probability row given a
uniform value `u`: the first index whose cumulative sum exceeds `u`
(numpy `(cumsum > u).argmax()`), index `0` when no prefix exceeds `u`. -/
def sampleRow {n : ℕ} (hn : 0 < n) (p : Fin n → ℚ) (u : ℚ) : Fin n :=
  if h : (Finset.univ.filter (fun i => u < cumsum p i)).Nonempty then
    (Finset.univ.filter (fun i => u < cumsum p i)).min' h
  else ⟨0, hn⟩

/-- Modelled from the spec: `obp.utils.sample_action_fast` (repository
code outside `src/`): samples one index per row of a probability matrix,
using a fresh uniform stream seeded with `random_state` (one uniform draw
per row, row `r` uses draw `r`). -/
def sample_action_fast {R n : ℕ} (hn : 0 < n) (dist : Fin R → Fin n → ℚ)
    (random_state : ℤ) : Fin R → Fin n :=
  fun r => sampleRow hn (dist r) (unitVal random_state r.1)

/-- Indices `0, …, n-1` sorted by ascending key `v` (models
`np.argsort(v)`; ties resolved arbitrarily, as numpy leaves their order
unspecified for continuous draws). -/
def argsort {n : ℕ} (v : Fin n → ℚ) : List (Fin n) :=
  List.insertionSort (fun i j => v i ≤ v j) (List.finRange n)

/-- The `k` indices with the largest keys: models
`np.argsort(v)[::-1][:k]`. -/
def topIndices {n : ℕ} (v : Fin n → ℚ) (k : ℕ) : List (Fin n) :=
  (argsort v).reverse.take k

/-- The pluggable reward-function contract (spec section 6):
`(context, action_context, random_state) ↦ expected-reward matrix`,
polymorphic in the numbers of rounds, categories, latent dimensions and
context dimensions. -/
def RewardFn : Type :=
  (R K L dc : ℕ) → (Fin R → Fin dc → ℚ) → (Fin K → Fin L → ℚ) → ℤ →
    Fin R → Fin K → ℚ

/-- The pluggable behavior-policy-function contract (spec section 6):
`(context, action_context, random_state) ↦ logit matrix`. -/
def BehaviorPolicyFn : Type :=
  (R A dc : ℕ) → (Fin R → Fin dc → ℚ) → (Fin A → Fin A → ℚ) → ℤ →
    Fin R → Fin A → ℚ

/-- Modelled from the spec: `obp.dataset.logistic_reward_function`
(out-of-scope pluggable default for binary rewards); its contract is to
produce expected rewards in `[0, 1]` from context and action context. -/
def logistic_reward_function : RewardFn :=
  fun _R _K _L _dc ctx ac seed r k =>
    1 / (1 + expQ (-(∑ j, ctx r j) - (∑ l, ac k l) - (seed : ℚ)))

/-- Modelled from the spec: `obp.dataset.linear_reward_function`
(out-of-scope pluggable default for continuous rewards); a real-valued
function of context and action context. -/
def linear_reward_function : RewardFn :=
  fun _R _K _L _dc ctx ac seed r k =>
    (∑ j, ctx r j) + (∑ l, ac k l) + (seed : ℚ)

/-- User-facing configuration of
`SyntheticBanditDatasetWithActionEmbeds`: the dataclass fields as the
caller passes them (dimension counts before the internal `+= 1`
adjustment of `__post_init__`). -/
structure Config where
  n_actions : ℕ
  dim_context : ℕ
  reward_type : RewardType
  reward_function : Option RewardFn
  reward_std : ℚ
  behavior_policy_function : Option BehaviorPolicyFn
  beta : ℚ
  n_cat_per_dim : ℕ
  latent_param_mat_dim : ℕ
  n_cat_dim : ℕ
  p_e_a_param_std : ℚ
  n_unobserved_cat_dim : ℕ
  n_irrelevant_cat_dim : ℕ
  n_deficient_actions : ℕ
  random_state : ℤ

/-- The construction-time validation of `__post_init__` together with the
parent-class checks (spec section 3): all `check_scalar` range
constraints.  The parent-class checks are modelled from the spec, the
`check_scalar` calls of `__post_init__` from the source. -/
@[mk_iff]
structure ValidCfg (c : Config) : Prop where
  two_le_actions : 2 ≤ c.n_actions
  one_le_dim_context : 1 ≤ c.dim_context
  one_le_cat_per_dim : 1 ≤ c.n_cat_per_dim
  one_le_latent : 1 ≤ c.latent_param_mat_dim
  one_le_cat_dim : 1 ≤ c.n_cat_dim
  pea_std_nonneg : 0 ≤ c.p_e_a_param_std
  unobserved_le : c.n_unobserved_cat_dim ≤ c.n_cat_dim
  irrelevant_le : c.n_irrelevant_cat_dim ≤ c.n_cat_dim
  deficient_le : c.n_deficient_actions ≤ c.n_actions - 1
  reward_std_pos : 0 < c.reward_std

instance (c : Config) : Decidable (ValidCfg c) :=
  decidable_of_iff _ (validCfg_iff c).symm

/-- Number of normal draws consumed building `latent_cat_param`
(shape `(n_cat_dim, n_cat_per_dim, latent_param_mat_dim)` after the
internal increment). -/
def latentCount (c : Config) : ℕ :=
  (c.n_cat_dim + 1) * (c.n_cat_per_dim * c.latent_param_mat_dim)

/-- Number of normal draws consumed building the `p_e_a` logits
(shape `(n_actions, n_cat_per_dim, n_cat_dim)` after the increment). -/
def peaCount (c : Config) : ℕ :=
  c.n_actions * (c.n_cat_per_dim * (c.n_cat_dim + 1))

/-- Total number of draws `_define_action_embed` consumes from the
instance generator. -/
def constructionCount (c : Config) : ℕ :=
  latentCount c + peaCount c

/-- `self.latent_cat_param`: standard-normal tensor of shape
`(n_cat_dim, n_cat_per_dim, latent_param_mat_dim)` drawn first from the
instance generator. -/
def mkLatent (c : Config) :
    Fin (c.n_cat_dim + 1) → Fin c.n_cat_per_dim →
      Fin c.latent_param_mat_dim → ℚ :=
  fun d k l =>
    stdNormal c.random_state
      ((d.1 * c.n_cat_per_dim + k.1) * c.latent_param_mat_dim + l.1)

/-- The normal logits (scale `p_e_a_param_std`) drawn for `p_e_a`,
consuming the draws after `latent_cat_param`. -/
def peaLogit (c : Config) (a : Fin c.n_actions) (k : Fin c.n_cat_per_dim)
    (d : Fin (c.n_cat_dim + 1)) : ℚ :=
  c.p_e_a_param_std *
    stdNormal c.random_state
      (latentCount c + (a.1 * c.n_cat_per_dim + k.1) * (c.n_cat_dim + 1) + d.1)

/-- `self.p_e_a`: softmax of the normal logits along the category axis,
independently for each action and embedding dimension. -/
def mkPea (c : Config) :
    Fin c.n_actions → Fin c.n_cat_per_dim → Fin (c.n_cat_dim + 1) → ℚ :=
  fun a k d => softmax (fun k2 => peaLogit c a k2 d) k

/-- A constructed `SyntheticBanditDatasetWithActionEmbeds` instance after
`__post_init__`: configuration, the validation facts, the internally
incremented dimension counters, the resolved reward function, the fixed
tensors of `_define_action_embed`, and the generator draw counter. -/
structure Instance where
  cfg : Config
  h_valid : ValidCfg cfg
  n_cat_dim : ℕ
  n_unobserved_cat_dim : ℕ
  n_irrelevant_cat_dim : ℕ
  h_cat : n_cat_dim = cfg.n_cat_dim + 1
  h_uno : n_unobserved_cat_dim = cfg.n_unobserved_cat_dim + 1
  h_irr : n_irrelevant_cat_dim = cfg.n_irrelevant_cat_dim + 1
  reward_function : RewardFn
  action_context : Fin cfg.n_actions → Fin cfg.n_actions → ℚ
  latent_cat_param :
    Fin n_cat_dim → Fin cfg.n_cat_per_dim → Fin cfg.latent_param_mat_dim → ℚ
  p_e_a : Fin cfg.n_actions → Fin cfg.n_cat_per_dim → Fin n_cat_dim → ℚ
  action_context_reg : Fin cfg.n_actions → Fin n_cat_dim → Fin cfg.n_cat_per_dim
  counter : ℕ

/-- The number of actions of a constructed instance is positive. -/
def Instance.hApos (inst : Instance) : 0 < inst.cfg.n_actions := by
  have h := inst.h_valid.two_le_actions
  omega

/-- The number of categories per dimension of a constructed instance is
positive. -/
def Instance.hKpos (inst : Instance) : 0 < inst.cfg.n_cat_per_dim := by
  have h := inst.h_valid.one_le_cat_per_dim
  omega

/-- `mkInstance c h` is the instance `__post_init__` builds from a valid
configuration `c`: dimension counters incremented by one, default reward
function resolved by reward type, `_define_action_embed` tensors drawn
from the generator seeded with `random_state`, and `action_context` the
parent-class one-hot action representation (modelled from the spec). -/
def mkInstance (c : Config) (h : ValidCfg c) : Instance where
  cfg := c
  h_valid := h
  n_cat_dim := c.n_cat_dim + 1
  n_unobserved_cat_dim := c.n_unobserved_cat_dim + 1
  n_irrelevant_cat_dim := c.n_irrelevant_cat_dim + 1
  h_cat := rfl
  h_uno := rfl
  h_irr := rfl
  reward_function :=
    c.reward_function.getD
      (match c.reward_type with
       | RewardType.binary => logistic_reward_function
       | RewardType.continuous => linear_reward_function)
  action_context := fun i j => if i = j then 1 else 0
  latent_cat_param := mkLatent c
  p_e_a := mkPea c
  action_context_reg := fun a d =>
    sample_action_fast (by have := h.one_le_cat_per_dim; omega)
      (fun a2 k => mkPea c a2 k d) (c.random_state + d.1) a
  counter := constructionCount c

/-- `SyntheticBanditDatasetWithActionEmbeds(...)` as a fallible
constructor: validation failure raises, success yields the constructed
instance. -/
def construct (c : Config) : Except String Instance :=
  if h : ValidCfg c then Except.ok (mkInstance c h)
  else Except.error "invalid configuration"

/-- Shift an index of the stripped (last `n - k` slots) view back to the
full `n`-slot dimension axis: position `j` of `x[k:]` is position `k + j`
of `x`. -/
def offsetFin {n : ℕ} (k : ℕ) (j : Fin (n - k)) : Fin n :=
  ⟨k + j.1, by omega⟩

/-- Draw counter after the batch's context draws
(`contexts = random_.normal(size=(n_rounds, dim_context))`). -/
def cCtx (inst : Instance) (R : ℕ) : ℕ :=
  inst.counter + R * inst.cfg.dim_context

/-- `contexts`: the per-round context matrix, standard-normal draws taken
first in `obtain_batch_bandit_feedback`. -/
def contexts (inst : Instance) (R : ℕ) : Fin R → Fin inst.cfg.dim_context → ℚ :=
  fun r j =>
    stdNormal inst.cfg.random_state
      (inst.counter + r.1 * inst.cfg.dim_context + j.1)

/-- The number of relevant embedding dimensions: the internal dimension
count minus the internal irrelevant-dimension count (the size of the
Dirichlet draw). -/
def nRelevant (inst : Instance) : ℕ :=
  inst.n_cat_dim - inst.n_irrelevant_cat_dim

/-- Draw counter after the Dirichlet-concentration uniform draws
(`alpha = random_.uniform(size=n_cat_dim - n_irrelevant_cat_dim)`). -/
def cAlpha (inst : Instance) (R : ℕ) : ℕ :=
  cCtx inst R + nRelevant inst

/-- Unnormalized positive mass of entry `i` of the Dirichlet draw
(models `random_.dirichlet(alpha)`, whose documented contract is a
probability vector; each mass is an advanced stream draw shifted to be
positive). -/
def dirichletRaw (inst : Instance) (R : ℕ) (i : ℕ) : ℚ :=
  unitVal inst.cfg.random_state (cAlpha inst R + i) + 1

/-- Total unnormalized Dirichlet mass over the relevant dimensions. -/
def dirichletDenom (inst : Instance) (R : ℕ) : ℚ :=
  ∑ i ∈ Finset.range (nRelevant inst), dirichletRaw inst R i

/-- `cat_dim_importance` at natural dimension index `dn`: zero on the
first `n_irrelevant_cat_dim` (internal) slots, the normalized Dirichlet
entry `dn - n_irrelevant_cat_dim` beyond them. -/
def catImportanceNat (inst : Instance) (R : ℕ) (dn : ℕ) : ℚ :=
  if inst.n_irrelevant_cat_dim ≤ dn then
    dirichletRaw inst R (dn - inst.n_irrelevant_cat_dim) / dirichletDenom inst R
  else 0

/-- `cat_dim_importance`: the per-dimension importance weights of a
batch call. -/
def cat_dim_importance (inst : Instance) (R : ℕ) (d : Fin inst.n_cat_dim) : ℚ :=
  catImportanceNat inst R d.1

/-- Draw counter after the Dirichlet draw. -/
def cDir (inst : Instance) (R : ℕ) : ℕ :=
  cAlpha inst R + nRelevant inst

/-- `q_x_e`: expected reward per round, category value and embedding
dimension, from the pluggable reward function applied to the contexts and
the latent category parameters of dimension `d` with seed
`random_state + d`. -/
def q_x_e (inst : Instance) (R : ℕ)
    (r : Fin R) (k : Fin inst.cfg.n_cat_per_dim) (d : Fin inst.n_cat_dim) : ℚ :=
  inst.reward_function R inst.cfg.n_cat_per_dim inst.cfg.latent_param_mat_dim
    inst.cfg.dim_context (contexts inst R) (inst.latent_cat_param d)
    (inst.cfg.random_state + d.1) r k

/-- Per-dimension expected reward per action:
`q_x_a[:, :, d] = q_x_e[:, :, d] @ p_e_a[:, :, d].T`. -/
def qxaRaw (inst : Instance) (R : ℕ)
    (r : Fin R) (a : Fin inst.cfg.n_actions) (d : Fin inst.n_cat_dim) : ℚ :=
  ∑ k, q_x_e inst R r k d * inst.p_e_a a k d

/-- `q_x_a` after aggregation:
`(q_x_a * cat_dim_importance).sum(2)`. -/
def q_x_a (inst : Instance) (R : ℕ)
    (r : Fin R) (a : Fin inst.cfg.n_actions) : ℚ :=
  ∑ d, cat_dim_importance inst R d * qxaRaw inst R r a d

/-- `pi_b_logits`: the aggregated expected reward when no behavior-policy
function is supplied, otherwise the pluggable function's logits. -/
def piBLogits (inst : Instance) (R : ℕ) :
    Fin R → Fin inst.cfg.n_actions → ℚ :=
  match inst.cfg.behavior_policy_function with
  | none => q_x_a inst R
  | some f =>
      f R inst.cfg.n_actions inst.cfg.dim_context (contexts inst R)
        inst.action_context inst.cfg.random_state

/-- `n_supported_actions = n_actions - n_deficient_actions`. -/
def nSupported (inst : Instance) : ℕ :=
  inst.cfg.n_actions - inst.cfg.n_deficient_actions

/-- The per-round Gumbel keys used to choose the supported actions
(consumed from the instance generator after the Dirichlet draw, only in
the deficient branch). -/
def gumbelKeys (inst : Instance) (R : ℕ)
    (r : Fin R) (a : Fin inst.cfg.n_actions) : ℚ :=
  gumbelVal inst.cfg.random_state
    (cDir inst R + r.1 * inst.cfg.n_actions + a.1)

/-- `supported_actions` of round `r`: the `n_supported_actions` actions
with the largest Gumbel keys
(`np.argsort(gumbel)[:, ::-1][:, :n_supported_actions]`). -/
def supported (inst : Instance) (R : ℕ) (r : Fin R) :
    List (Fin inst.cfg.n_actions) :=
  topIndices (gumbelKeys inst R r) (nSupported inst)

/-- `pi_b`: the behavior-policy probability matrix of a batch call.  In
the deficient branch, the softmax of `beta`-scaled logits restricted to
the supported actions of the round, scattered back with zeros elsewhere;
otherwise the full softmax of `beta`-scaled logits. -/
def pi_b (inst : Instance) (R : ℕ)
    (r : Fin R) (a : Fin inst.cfg.n_actions) : ℚ :=
  if 0 < inst.cfg.n_deficient_actions then
    if a ∈ supported inst R r then
      expQ (inst.cfg.beta * piBLogits inst R r a) /
        ((supported inst R r).map
          (fun b => expQ (inst.cfg.beta * piBLogits inst R r b))).sum
    else 0
  else softmax (fun b => inst.cfg.beta * piBLogits inst R r b) a

/-- Draw counter after the Gumbel keys (which are drawn only in the
deficient branch). -/
def cGumbel (inst : Instance) (R : ℕ) : ℕ :=
  cDir inst R +
    (if 0 < inst.cfg.n_deficient_actions then R * inst.cfg.n_actions else 0)

/-- `actions`: one action per round sampled from `pi_b` with
`sample_action_fast(pi_b, random_state=self.random_state)` (a fresh
sampler seeded with the base seed). -/
def actions (inst : Instance) (R : ℕ) : Fin R → Fin inst.cfg.n_actions :=
  sample_action_fast inst.hApos (pi_b inst R) inst.cfg.random_state

/-- `action_embed`: per round and embedding dimension `d`, one category
sampled from `p_e_a[actions, :, d]` with
`sample_action_fast(..., random_state=d)` (the literal dimension index as
seed). -/
def action_embed (inst : Instance) (R : ℕ)
    (r : Fin R) (d : Fin inst.n_cat_dim) : Fin inst.cfg.n_cat_per_dim :=
  sample_action_fast inst.hKpos
    (fun r2 k => inst.p_e_a (actions inst R r2) k d) (d.1 : ℤ) r

/-- `expected_rewards_factual`: the importance-weighted sum over
dimensions of `q_x_e` at the realized embedding categories. -/
def expected_rewards_factual (inst : Instance) (R : ℕ) (r : Fin R) : ℚ :=
  ∑ d, cat_dim_importance inst R d * q_x_e inst R r (action_embed inst R r d) d

/-- `rewards`: one Binomial(1, expected_rewards_factual) draw per round
for binary reward type, one
Normal(expected_rewards_factual, reward_std) draw per round for
continuous reward type, consuming the instance generator after the
Gumbel keys. -/
def rewards (inst : Instance) (R : ℕ) (r : Fin R) : ℚ :=
  match inst.cfg.reward_type with
  | RewardType.binary =>
      binomialOneDraw (expected_rewards_factual inst R r)
        inst.cfg.random_state (cGumbel inst R + r.1)
  | RewardType.continuous =>
      normalDraw (expected_rewards_factual inst R r) inst.cfg.reward_std
        inst.cfg.random_state (cGumbel inst R + r.1)

/-- Draw counter after a whole successful batch call. -/
def finalCount (inst : Instance) (R : ℕ) : ℕ :=
  cGumbel inst R + R

/-- The returned `BanditFeedback` bundle: plain lists so that shapes and
bit-identity are observable. -/
structure Bundle where
  n_rounds : ℕ
  n_actions : ℕ
  action_context : List (List ℕ)
  action_embed : List (List ℕ)
  context : List (List ℚ)
  action : List ℕ
  position : Option ℕ
  reward : List ℚ
  expected_reward : List (List ℚ)
  q_x_e : List (List (List ℚ))
  p_e_a : List (List (List ℚ))
  pi_b : List (List (List ℚ))
  pscore : List ℚ
deriving DecidableEq, Repr, Inhabited

/-- The `return dict(...)` assembly of a successful batch call: the
reserved padding slot is stripped from `action_context`, the internal
unobserved slots are stripped from `action_embed`, `q_x_e` and `p_e_a`,
`pi_b` gains a trailing singleton axis, and `pscore` reads `pi_b` at the
sampled actions. -/
def assembleBundle (inst : Instance) (R : ℕ) : Bundle where
  n_rounds := R
  n_actions := inst.cfg.n_actions
  action_context :=
    List.ofFn fun a : Fin inst.cfg.n_actions =>
      List.ofFn fun j : Fin (inst.n_cat_dim - 1) =>
        (inst.action_context_reg a (offsetFin 1 j)).1
  action_embed :=
    List.ofFn fun r : Fin R =>
      List.ofFn fun j : Fin (inst.n_cat_dim - inst.n_unobserved_cat_dim) =>
        (action_embed inst R r (offsetFin inst.n_unobserved_cat_dim j)).1
  context :=
    List.ofFn fun r : Fin R =>
      List.ofFn fun j : Fin inst.cfg.dim_context => contexts inst R r j
  action := List.ofFn fun r : Fin R => (actions inst R r).1
  position := none
  reward := List.ofFn fun r : Fin R => rewards inst R r
  expected_reward :=
    List.ofFn fun r : Fin R =>
      List.ofFn fun a : Fin inst.cfg.n_actions => q_x_a inst R r a
  q_x_e :=
    List.ofFn fun r : Fin R =>
      List.ofFn fun k : Fin inst.cfg.n_cat_per_dim =>
        List.ofFn fun j : Fin (inst.n_cat_dim - inst.n_unobserved_cat_dim) =>
          q_x_e inst R r k (offsetFin inst.n_unobserved_cat_dim j)
  p_e_a :=
    List.ofFn fun a : Fin inst.cfg.n_actions =>
      List.ofFn fun k : Fin inst.cfg.n_cat_per_dim =>
        List.ofFn fun j : Fin (inst.n_cat_dim - inst.n_unobserved_cat_dim) =>
          inst.p_e_a a k (offsetFin inst.n_unobserved_cat_dim j)
  pi_b :=
    List.ofFn fun r : Fin R =>
      List.ofFn fun a : Fin inst.cfg.n_actions => [pi_b inst R r a]
  pscore := List.ofFn fun r : Fin R => pi_b inst R r (actions inst R r)

/-- `obtain_batch_bandit_feedback(n_rounds)`: validates
`check_scalar(n_rounds, "n_rounds", int, min_val=1)` before any draw,
then produces the bundle and advances the instance generator; on
validation failure the error is raised with the instance unchanged.  The
second component is the instance after the call. -/
def obtain_batch_bandit_feedback (inst : Instance) (n_rounds : ℤ) :
    Except String Bundle × Instance :=
  if 1 ≤ n_rounds then
    (Except.ok (assembleBundle inst n_rounds.toNat),
      { inst with counter := finalCount inst n_rounds.toNat })
  else
    (Except.error "n_rounds must be an integer larger than or equal to 1", inst)

/-- Extract the bundle of a successful batch call (the default bundle on
error); used to name concrete bundles in closed statements. -/
def bundleOf (inst : Instance) (n_rounds : ℤ) : Bundle :=
  match (obtain_batch_bandit_feedback inst n_rounds).1 with
  | Except.ok b => b
  | Except.error _ => default

/-- A small concrete valid configuration: two actions, one context
dimension, binary rewards, one category per dimension, one user embedding
dimension, no deficient actions. -/
def cfg0 : Config where
  n_actions := 2
  dim_context := 1
  reward_type := RewardType.binary
  reward_function := none
  reward_std := 1
  behavior_policy_function := none
  beta := 1
  n_cat_per_dim := 1
  latent_param_mat_dim := 1
  n_cat_dim := 1
  p_e_a_param_std := 1
  n_unobserved_cat_dim := 0
  n_irrelevant_cat_dim := 0
  n_deficient_actions := 0
  random_state := 12345

/-- `cfg0` with three actions and one deficient action. -/
def cfgD : Config :=
  { cfg0 with n_actions := 3, n_deficient_actions := 1 }

/-- `cfg0` with one deficient action: the boundary
`n_deficient_actions = n_actions - 1`. -/
def cfgB : Config :=
  { cfg0 with n_deficient_actions := 1 }

/-- `cfg0` with continuous rewards. -/
def cfgC : Config :=
  { cfg0 with reward_type := RewardType.continuous }

/-- `cfg0` with every user embedding dimension declared irrelevant
(`n_irrelevant_cat_dim = n_cat_dim = 1`). -/
def cfgX : Config :=
  { cfg0 with n_irrelevant_cat_dim := 1 }

/-- The instance constructed from `cfg0`. -/
def inst0 : Instance := mkInstance cfg0 (by decide)

/-- The instance constructed from `cfgD`. -/
def instD : Instance := mkInstance cfgD (by decide)

/-- The instance constructed from `cfgB`. -/
def instB : Instance := mkInstance cfgB (by decide)

/-- The instance constructed from `cfgC`. -/
def instC : Instance := mkInstance cfgC (by decide)

/-- The instance constructed from `cfgX`. -/
def instX : Instance := mkInstance cfgX (by decide)

/-! ### Basic facts about the stream model and the softmax -/

/-- The scrambled seed-and-index value stays below the modulus. -/
theorem mix_lt (seed : ℤ) (k : ℕ) : mix seed k < 104729 :=
  Nat.mod_lt _ (by norm_num)

/-- Uniform stream draws are nonnegative. -/
theorem unitVal_nonneg (seed : ℤ) (k : ℕ) : 0 ≤ unitVal seed k := by
  unfold unitVal
  positivity

/-- Uniform stream draws are below one. -/
theorem unitVal_lt_one (seed : ℤ) (k : ℕ) : unitVal seed k < 1 := by
  unfold unitVal
  rw [div_lt_one (by norm_num)]
  exact_mod_cast mix_lt seed k

/-- The modelled exponential is strictly positive everywhere. -/
theorem expQ_pos (x : ℚ) : 0 < expQ x := by
  unfold expQ
  split
  · linarith
  · rename_i h
    have hx : x < 0 := lt_of_not_le h
    exact div_pos one_pos (by linarith)

/-- The softmax denominator is strictly positive on a nonempty axis. -/
theorem softmax_denom_pos {n : ℕ} (hn : 0 < n) (z : Fin n → ℚ) :
    0 < ∑ b, expQ (z b) :=
  Finset.sum_pos (fun b _ => expQ_pos (z b))
    (Finset.univ_nonempty_iff.mpr ⟨⟨0, hn⟩⟩)

/-- Softmax values along a nonempty axis sum to one. -/
theorem sum_softmax {n : ℕ} (hn : 0 < n) (z : Fin n → ℚ) :
    ∑ a, softmax z a = 1 := by
  unfold softmax
  rw [← Finset.sum_div]
  exact div_self (softmax_denom_pos hn z).ne'

/-- Softmax values are strictly positive. -/
theorem softmax_pos {n : ℕ} (hn : 0 < n) (z : Fin n → ℚ) (a : Fin n) :
    0 < softmax z a :=
  div_pos (expQ_pos (z a)) (softmax_denom_pos hn z)

/-! ### Facts about argsort and the supported-action selection -/

/-- The ascending argsort is a permutation of all indices. -/
theorem argsort_perm {n : ℕ} (v : Fin n → ℚ) :
    (argsort v).Perm (List.finRange n) :=
  List.perm_insertionSort _ _

/-- The argsort list has no duplicates. -/
theorem argsort_nodup {n : ℕ} (v : Fin n → ℚ) : (argsort v).Nodup :=
  (argsort_perm v).nodup_iff.mpr (List.nodup_finRange n)

/-- The argsort list has one entry per index. -/
theorem argsort_length {n : ℕ} (v : Fin n → ℚ) : (argsort v).length = n :=
  (argsort_perm v).length_eq.trans (List.length_finRange n)

/-- The selected top indices are distinct. -/
theorem topIndices_nodup {n : ℕ} (v : Fin n → ℚ) (k : ℕ) :
    (topIndices v k).Nodup :=
  ((List.take_sublist _ _).nodup (List.nodup_reverse.mpr (argsort_nodup v)))

/-- Exactly `min k n` top indices are selected. -/
theorem topIndices_length {n : ℕ} (v : Fin n → ℚ) (k : ℕ) :
    (topIndices v k).length = min k n := by
  unfold topIndices
  rw [List.length_take, List.length_reverse, argsort_length]

/-- Summing a function over a duplicate-free list is summing it over the
list's finset of elements. -/
theorem sum_map_toFinset {α : Type} [DecidableEq α]
    (l : List α) (hl : l.Nodup) (f : α → ℚ) :
    (l.map f).sum = ∑ x ∈ l.toFinset, f x := by
  induction l with
  | nil => simp
  | cons a t ih =>
      obtain ⟨ha, ht⟩ := List.nodup_cons.mp hl
      simp only [List.map_cons, List.sum_cons, List.toFinset_cons]
      rw [Finset.sum_insert (by simpa using ha), ih ht]

/-- At least one action is supported in every round
(`n_deficient_actions ≤ n_actions - 1`). -/
theorem nSupported_pos (inst : Instance) : 0 < nSupported inst := by
  have h1 := inst.h_valid.two_le_actions
  have h2 := inst.h_valid.deficient_le
  unfold nSupported
  omega

/-- The supported-action list of every round has exactly
`n_actions - n_deficient_actions` entries. -/
theorem supported_length (inst : Instance) (R : ℕ) (r : Fin R) :
    (supported inst R r).length = nSupported inst := by
  unfold supported
  rw [topIndices_length]
  have h2 := inst.h_valid.deficient_le
  unfold nSupported
  omega

/-- The supported-action list of every round has no duplicates. -/
theorem supported_nodup (inst : Instance) (R : ℕ) (r : Fin R) :
    (supported inst R r).Nodup :=
  topIndices_nodup _ _

/-! ### The behavior policy is a probability distribution -/

/-- In the deficient branch, the softmax denominator over the supported
actions of a round is strictly positive. -/
theorem supported_denom_pos (inst : Instance) (R : ℕ) (r : Fin R) :
    0 < ((supported inst R r).map
      (fun b => expQ (inst.cfg.beta * piBLogits inst R r b))).sum := by
  rw [sum_map_toFinset _ (supported_nodup inst R r)]
  apply Finset.sum_pos (fun b _ => expQ_pos _)
  rw [List.toFinset_nonempty_iff]
  intro hnil
  have hlen := supported_length inst R r
  rw [hnil] at hlen
  simp only [List.length_nil] at hlen
  have := nSupported_pos inst
  omega

/-- Every behavior-policy row sums to one, in the deficient branch and in
the ordinary branch alike. -/
theorem sum_pi_b (inst : Instance) (R : ℕ) (r : Fin R) :
    ∑ a, pi_b inst R r a = 1 := by
  unfold pi_b
  by_cases hdef : 0 < inst.cfg.n_deficient_actions
  · simp only [if_pos hdef]
    simp only [← List.mem_toFinset]
    rw [Finset.sum_ite_mem]
    have huniv :
        Finset.univ ∩ (supported inst R r).toFinset =
          (supported inst R r).toFinset := Finset.univ_inter _
    rw [huniv, ← Finset.sum_div,
      ← sum_map_toFinset _ (supported_nodup inst R r)]
    exact div_self (supported_denom_pos inst R r).ne'
  · simp only [if_neg hdef]
    exact sum_softmax inst.hApos _

/-- Probabilities of supported actions are strictly positive in the
deficient branch. -/
theorem pi_b_pos_of_supported (inst : Instance) (R : ℕ) (r : Fin R)
    (hdef : 0 < inst.cfg.n_deficient_actions)
    (a : Fin inst.cfg.n_actions) (ha : a ∈ supported inst R r) :
    0 < pi_b inst R r a := by
  unfold pi_b
  simp only [if_pos hdef, if_pos ha]
  exact div_pos (expQ_pos _) (supported_denom_pos inst R r)

/-- Probabilities of unsupported actions are exactly zero in the
deficient branch. -/
theorem pi_b_zero_of_unsupported (inst : Instance) (R : ℕ) (r : Fin R)
    (hdef : 0 < inst.cfg.n_deficient_actions)
    (a : Fin inst.cfg.n_actions) (ha : a ∉ supported inst R r) :
    pi_b inst R r a = 0 := by
  unfold pi_b
  simp only [if_pos hdef, if_neg ha]

/-! ### Claim theorems -/

/-- Claim C1: for every call to `obtain_batch_bandit_feedback` and every
round, the behavior-policy probability vector `pi_b[r, :]` over actions
sums to 1, both in the deficient-action branch and in the ordinary
softmax branch. -/
theorem c1_pi_b_rows_sum_to_one (inst : Instance) (n : ℤ) (b : Bundle)
    (hb : (obtain_batch_bandit_feedback inst n).1 = Except.ok b) :
    ∀ row ∈ b.pi_b, (row.map List.sum).sum = 1 := by
  unfold obtain_batch_bandit_feedback at hb
  by_cases hn : 1 ≤ n
  · rw [if_pos hn] at hb
    simp only [Except.ok.injEq] at hb
    subst hb
    show ∀ row ∈ (assembleBundle inst n.toNat).pi_b, _
    unfold assembleBundle
    rw [List.forall_mem_ofFn_iff]
    intro r
    rw [List.map_ofFn]
    rw [List.sum_ofFn]
    have : ∀ a, (List.sum ∘ fun a => [pi_b inst n.toNat r a]) a
        = pi_b inst n.toNat r a := by
      intro a
      simp
    rw [Finset.sum_congr rfl (fun a _ => this a)]
    exact sum_pi_b inst n.toNat r
  · rw [if_neg hn] at hb
    exact absurd hb (by simp)

set_option maxRecDepth 40000 in
/-- Witness for C1 at a concrete instance, batch and row. -/
theorem c1_witness :
    (((bundleOf inst0 2).pi_b.headI).map List.sum).sum = 1 :=
  c1_pi_b_rows_sum_to_one inst0 2 (bundleOf inst0 2) (by decide)
    ((bundleOf inst0 2).pi_b.headI) (by decide)

/-- Claim C2: with `n_deficient_actions = k > 0`, every round has exactly
`n_actions - k` actions of nonzero behavior-policy probability, the
unsupported actions have probability exactly zero, and on the supported
subset the probabilities are the softmax of `beta`-scaled logits
restricted to that subset. -/
theorem c2_deficient_support (inst : Instance) (R : ℕ) (r : Fin R)
    (hdef : 0 < inst.cfg.n_deficient_actions) :
    (Finset.univ.filter fun a => pi_b inst R r a ≠ 0).card
        = inst.cfg.n_actions - inst.cfg.n_deficient_actions
    ∧ (∀ a, a ∉ supported inst R r → pi_b inst R r a = 0)
    ∧ (∀ a ∈ supported inst R r,
        pi_b inst R r a = expQ (inst.cfg.beta * piBLogits inst R r a) /
          ∑ b ∈ (supported inst R r).toFinset,
            expQ (inst.cfg.beta * piBLogits inst R r b)) := by
  refine ⟨?_, fun a => pi_b_zero_of_unsupported inst R r hdef a,
    fun a ha => ?_⟩
  · have hset : (Finset.univ.filter fun a => pi_b inst R r a ≠ 0)
        = (supported inst R r).toFinset := by
      ext a
      simp only [Finset.mem_filter, Finset.mem_univ, true_and,
        List.mem_toFinset]
      constructor
      · intro hne
        by_contra hmem
        exact hne (pi_b_zero_of_unsupported inst R r hdef a hmem)
      · intro hmem
        exact (pi_b_pos_of_supported inst R r hdef a hmem).ne'
    rw [hset, List.toFinset_card_of_nodup (supported_nodup inst R r),
      supported_length]
    rfl
  · unfold pi_b
    simp only [if_pos hdef, if_pos ha]
    rw [sum_map_toFinset _ (supported_nodup inst R r)]

set_option maxRecDepth 40000 in
/-- Witness for C2 at a concrete deficient instance, round and actions
(action 1 is unsupported there, action 2 supported). -/
theorem c2_witness :
    (Finset.univ.filter fun a => pi_b instD 1 ⟨0, Nat.one_pos⟩ a ≠ 0).card
        = instD.cfg.n_actions - instD.cfg.n_deficient_actions
    ∧ pi_b instD 1 ⟨0, Nat.one_pos⟩ ⟨1, by decide⟩ = 0
    ∧ pi_b instD 1 ⟨0, Nat.one_pos⟩ ⟨2, by decide⟩ =
        expQ (instD.cfg.beta * piBLogits instD 1 ⟨0, Nat.one_pos⟩ ⟨2, by decide⟩) /
          ∑ b ∈ (supported instD 1 ⟨0, Nat.one_pos⟩).toFinset,
            expQ (instD.cfg.beta * piBLogits instD 1 ⟨0, Nat.one_pos⟩ b) :=
  ⟨(c2_deficient_support instD 1 ⟨0, Nat.one_pos⟩ (by decide)).1,
   (c2_deficient_support instD 1 ⟨0, Nat.one_pos⟩ (by decide)).2.1
     ⟨1, by decide⟩ (by decide),
   (c2_deficient_support instD 1 ⟨0, Nat.one_pos⟩ (by decide)).2.2
     ⟨2, by decide⟩ (by decide)⟩

/-- Claim C3: in the action-embedding conditional distribution `p_e_a`
built at construction, for every action and embedding dimension the
probabilities over the category values sum to 1 (softmax along the
category axis). -/
theorem c3_p_e_a_category_sums (c : Config) (h : ValidCfg c)
    (a : Fin c.n_actions) (d : Fin (c.n_cat_dim + 1)) :
    ∑ k, (mkInstance c h).p_e_a a k d = 1 := by
  show ∑ k, mkPea c a k d = 1
  unfold mkPea
  exact sum_softmax (by have := h.one_le_cat_per_dim; omega) _

/-- Witness for C3 at a concrete configuration. -/
theorem c3_witness :
    ∑ k, (mkInstance cfg0 (by decide)).p_e_a ⟨0, by decide⟩ k ⟨1, by decide⟩
      = 1 :=
  c3_p_e_a_category_sums cfg0 (by decide) ⟨0, by decide⟩ ⟨1, by decide⟩

/-- Claim C4: two freshly constructed instances with identical
configuration produce bit-identical output bundles from
`obtain_batch_bandit_feedback` with the same `n_rounds` (and construction
from a valid configuration indeed yields the constructed instance). -/
theorem c4_determinism (c : Config) (h1 h2 : ValidCfg c) (n : ℤ) :
    construct c = Except.ok (mkInstance c h1)
    ∧ obtain_batch_bandit_feedback (mkInstance c h1) n
        = obtain_batch_bandit_feedback (mkInstance c h2) n := by
  constructor
  · unfold construct
    rw [dif_pos h1]
  · rfl

/-- Witness for C4 at a concrete configuration. -/
theorem c4_witness :
    construct cfg0 = Except.ok (mkInstance cfg0 (by decide))
    ∧ obtain_batch_bandit_feedback (mkInstance cfg0 (by decide)) 3
        = obtain_batch_bandit_feedback (mkInstance cfg0 (by decide)) 3 :=
  c4_determinism cfg0 (by decide) (by decide) 3

/-- Claim C5: a call to `obtain_batch_bandit_feedback` changes nothing of
the instance but the generator counter (configuration,
`latent_cat_param`, `p_e_a`, `action_context_reg` all persist), and
repeated calls on the same instance return identical `p_e_a` and
`action_context` bundle fields. -/
theorem c5_frame (inst : Instance) (n : ℤ) :
    (obtain_batch_bandit_feedback inst n).2
        = { inst with counter := (obtain_batch_bandit_feedback inst n).2.counter }
    ∧ (∀ (n2 : ℤ) (b1 b2 : Bundle),
        (obtain_batch_bandit_feedback inst n).1 = Except.ok b1 →
        (obtain_batch_bandit_feedback
            ((obtain_batch_bandit_feedback inst n).2) n2).1 = Except.ok b2 →
        b1.p_e_a = b2.p_e_a ∧ b1.action_context = b2.action_context) := by
  constructor
  · unfold obtain_batch_bandit_feedback
    by_cases hn : 1 ≤ n
    · rw [if_pos hn]
    · rw [if_neg hn]
  · intro n2 b1 b2 h1 h2
    unfold obtain_batch_bandit_feedback at h1 h2
    by_cases hn : 1 ≤ n
    · rw [if_pos hn] at h1 h2
      simp only [Except.ok.injEq] at h1
      subst h1
      by_cases hn2 : 1 ≤ n2
      · rw [if_pos hn2] at h2
        simp only [Except.ok.injEq] at h2
        subst h2
        exact ⟨rfl, rfl⟩
      · rw [if_neg hn2] at h2
        exact absurd h2 (by simp)
    · rw [if_neg hn] at h1
      exact absurd h1 (by simp)

set_option maxRecDepth 100000 in
/-- Witness for C5 at a concrete instance and a pair of calls. -/
theorem c5_witness :
    (obtain_batch_bandit_feedback inst0 2).2
        = { inst0 with counter := (obtain_batch_bandit_feedback inst0 2).2.counter }
    ∧ ((bundleOf inst0 2).p_e_a
          = (bundleOf (obtain_batch_bandit_feedback inst0 2).2 3).p_e_a
        ∧ (bundleOf inst0 2).action_context
          = (bundleOf (obtain_batch_bandit_feedback inst0 2).2 3).action_context) :=
  ⟨(c5_frame inst0 2).1,
   (c5_frame inst0 2).2 3 (bundleOf inst0 2)
     (bundleOf (obtain_batch_bandit_feedback inst0 2).2 3)
     (by decide) (by decide)⟩

/-- Claim C6: output assembly strips the reserved padding slot and the
unobserved dimensions: `action_embed` is `(n_rounds, n_cat_dim -
n_unobserved_cat_dim)` in user-facing units, `q_x_e` and `p_e_a` drop
their first `n_unobserved_cat_dim + 1` internal slots, `action_context`
has exactly the user's `n_cat_dim` columns, and `pi_b` has shape
`(n_rounds, n_actions, 1)`. -/
theorem c6_output_shapes (inst : Instance) (n : ℤ) (b : Bundle)
    (hb : (obtain_batch_bandit_feedback inst n).1 = Except.ok b) :
    b.action_embed.length = n.toNat
    ∧ (∀ row ∈ b.action_embed,
        row.length = inst.cfg.n_cat_dim - inst.cfg.n_unobserved_cat_dim)
    ∧ b.q_x_e.length = n.toNat
    ∧ (∀ mat ∈ b.q_x_e, mat.length = inst.cfg.n_cat_per_dim
        ∧ ∀ row ∈ mat,
            row.length = inst.cfg.n_cat_dim - inst.cfg.n_unobserved_cat_dim)
    ∧ b.p_e_a.length = inst.cfg.n_actions
    ∧ (∀ mat ∈ b.p_e_a, mat.length = inst.cfg.n_cat_per_dim
        ∧ ∀ row ∈ mat,
            row.length = inst.cfg.n_cat_dim - inst.cfg.n_unobserved_cat_dim)
    ∧ b.action_context.length = inst.cfg.n_actions
    ∧ (∀ row ∈ b.action_context, row.length = inst.cfg.n_cat_dim)
    ∧ b.pi_b.length = n.toNat
    ∧ (∀ mat ∈ b.pi_b, mat.length = inst.cfg.n_actions
        ∧ ∀ row ∈ mat, row.length = 1) := by
  have hdims : inst.n_cat_dim - inst.n_unobserved_cat_dim
      = inst.cfg.n_cat_dim - inst.cfg.n_unobserved_cat_dim := by
    have h1 := inst.h_cat
    have h2 := inst.h_uno
    omega
  have hdim1 : inst.n_cat_dim - 1 = inst.cfg.n_cat_dim := by
    have h1 := inst.h_cat
    omega
  unfold obtain_batch_bandit_feedback at hb
  by_cases hn : 1 ≤ n
  · rw [if_pos hn] at hb
    simp only [Except.ok.injEq] at hb
    subst hb
    unfold assembleBundle
    refine ⟨?_, ?_, ?_, ?_, ?_, ?_, ?_, ?_, ?_, ?_⟩ <;>
      simp [List.forall_mem_ofFn_iff, hdims, hdim1]
  · rw [if_neg hn] at hb
    exact absurd hb (by simp)

set_option maxRecDepth 40000 in
/-- Witness for C6 at a concrete instance, batch and rows. -/
theorem c6_witness :
    (bundleOf inst0 2).action_embed.length = (2 : ℤ).toNat
    ∧ (bundleOf inst0 2).action_embed.headI.length
        = inst0.cfg.n_cat_dim - inst0.cfg.n_unobserved_cat_dim
    ∧ (bundleOf inst0 2).q_x_e.length = (2 : ℤ).toNat
    ∧ (bundleOf inst0 2).p_e_a.length = inst0.cfg.n_actions
    ∧ (bundleOf inst0 2).action_context.length = inst0.cfg.n_actions
    ∧ (bundleOf inst0 2).action_context.headI.length = inst0.cfg.n_cat_dim
    ∧ (bundleOf inst0 2).pi_b.length = (2 : ℤ).toNat
    ∧ (bundleOf inst0 2).pi_b.headI.headI.length = 1 :=
  ⟨(c6_output_shapes inst0 2 (bundleOf inst0 2) (by decide)).1,
   (c6_output_shapes inst0 2 (bundleOf inst0 2) (by decide)).2.1
     (bundleOf inst0 2).action_embed.headI (by decide),
   (c6_output_shapes inst0 2 (bundleOf inst0 2) (by decide)).2.2.1,
   (c6_output_shapes inst0 2 (bundleOf inst0 2) (by decide)).2.2.2.2.1,
   (c6_output_shapes inst0 2 (bundleOf inst0 2) (by decide)).2.2.2.2.2.2.1,
   (c6_output_shapes inst0 2 (bundleOf inst0 2) (by decide)).2.2.2.2.2.2.2.1
     (bundleOf inst0 2).action_context.headI (by decide),
   (c6_output_shapes inst0 2 (bundleOf inst0 2) (by decide)).2.2.2.2.2.2.2.2.1,
   ((c6_output_shapes inst0 2 (bundleOf inst0 2) (by decide)).2.2.2.2.2.2.2.2.2
     (bundleOf inst0 2).pi_b.headI (by decide)).2
     (bundleOf inst0 2).pi_b.headI.headI (by decide)⟩

/-- At the deficiency boundary, the supported-action list of every round
is a singleton. -/
theorem supported_singleton (inst : Instance) (R : ℕ) (r : Fin R)
    (hdef : inst.cfg.n_deficient_actions = inst.cfg.n_actions - 1) :
    ∃ s, supported inst R r = [s] := by
  have hlen : (supported inst R r).length = 1 := by
    rw [supported_length]
    unfold nSupported
    have := inst.h_valid.two_le_actions
    omega
  exact List.length_eq_one.mp hlen

/-- When the supported-action list is the singleton `[s]`, the policy row
is the one-hot vector at `s`. -/
theorem pi_b_onehot (inst : Instance) (R : ℕ) (r : Fin R)
    (s : Fin inst.cfg.n_actions) (hdef : 0 < inst.cfg.n_deficient_actions)
    (hS : supported inst R r = [s]) :
    ∀ a, pi_b inst R r a = if a = s then 1 else 0 := by
  intro a
  unfold pi_b
  rw [if_pos hdef, hS]
  by_cases ha : a = s
  · subst ha
    rw [if_pos (List.mem_singleton.mpr rfl), if_pos rfl]
    simp only [List.map_cons, List.map_nil, List.sum_cons, List.sum_nil,
      add_zero]
    exact div_self (expQ_pos _).ne'
  · rw [if_neg (fun hmem => ha (List.mem_singleton.mp hmem)), if_neg ha]

/-- Inverse-CDF sampling from a one-hot probability row returns the hot
index, for any uniform value in `[0, 1)`. -/
theorem sampleRow_onehot {n : ℕ} (hn : 0 < n) (p : Fin n → ℚ) (s : Fin n)
    (hp : ∀ a, p a = if a = s then 1 else 0) (u : ℚ)
    (hu0 : 0 ≤ u) (hu1 : u < 1) :
    sampleRow hn p u = s := by
  have hcum : ∀ i, cumsum p i = if s ≤ i then 1 else 0 := by
    intro i
    unfold cumsum
    by_cases hsi : s ≤ i
    · rw [if_pos hsi, Finset.sum_eq_single s]
      · rw [hp s, if_pos rfl]
      · intro b _ hbs
        rw [hp b, if_neg hbs]
      · intro hs
        exact (hs (Finset.mem_filter.mpr ⟨Finset.mem_univ s, hsi⟩)).elim
    · rw [if_neg hsi]
      apply Finset.sum_eq_zero
      intro b hb
      have hbi : b ≤ i := (Finset.mem_filter.mp hb).2
      have hbs : b ≠ s := fun h => hsi (h ▸ hbi)
      rw [hp b, if_neg hbs]
  have hset : (Finset.univ.filter fun i => u < cumsum p i)
      = Finset.univ.filter (fun i : Fin n => s ≤ i) := by
    ext i
    simp only [Finset.mem_filter, Finset.mem_univ, true_and, hcum]
    by_cases hsi : s ≤ i
    · simp [hsi, hu1]
    · simp [hsi, not_lt.mpr hu0]
  unfold sampleRow
  simp only [hset]
  have hne : (Finset.univ.filter fun i : Fin n => s ≤ i).Nonempty :=
    ⟨s, by simp⟩
  rw [dif_pos hne]
  refine le_antisymm (Finset.min'_le _ s (by simp)) ?_
  apply Finset.le_min'
  intro y hy
  exact (Finset.mem_filter.mp hy).2

/-- Claim C7: at the boundary `n_deficient_actions = n_actions - 1`,
every round has exactly one supported action, the sampled action is that
action, and every returned `pscore` entry equals exactly 1. -/
theorem c7_boundary_single_support (inst : Instance) (n : ℤ) (b : Bundle)
    (hdef : inst.cfg.n_deficient_actions = inst.cfg.n_actions - 1)
    (hb : (obtain_batch_bandit_feedback inst n).1 = Except.ok b) :
    (∀ r : Fin n.toNat, ∃ s, supported inst n.toNat r = [s]
        ∧ actions inst n.toNat r = s)
    ∧ ∀ x ∈ b.pscore, x = 1 := by
  have hdefpos : 0 < inst.cfg.n_deficient_actions := by
    have := inst.h_valid.two_le_actions
    omega
  have key : ∀ (R : ℕ) (r : Fin R), ∃ s, supported inst R r = [s]
      ∧ actions inst R r = s ∧ pi_b inst R r (actions inst R r) = 1 := by
    intro R r
    obtain ⟨s, hS⟩ := supported_singleton inst R r hdef
    have hhot := pi_b_onehot inst R r s hdefpos hS
    have hact : actions inst R r = s := by
      unfold actions sample_action_fast
      exact sampleRow_onehot inst.hApos _ s hhot _
        (unitVal_nonneg _ _) (unitVal_lt_one _ _)
    refine ⟨s, hS, hact, ?_⟩
    rw [hact, hhot s, if_pos rfl]
  constructor
  · intro r
    obtain ⟨s, h1, h2, _⟩ := key n.toNat r
    exact ⟨s, h1, h2⟩
  · unfold obtain_batch_bandit_feedback at hb
    by_cases hn : 1 ≤ n
    · rw [if_pos hn] at hb
      simp only [Except.ok.injEq] at hb
      subst hb
      show ∀ x ∈ (assembleBundle inst n.toNat).pscore, x = 1
      unfold assembleBundle
      rw [List.forall_mem_ofFn_iff]
      intro r
      obtain ⟨s, _, _, hps⟩ := key n.toNat r
      exact hps
    · rw [if_neg hn] at hb
      exact absurd hb (by simp)

set_option maxRecDepth 40000 in
/-- Witness for C7 at a concrete boundary instance: its single round's
pscore is exactly one. -/
theorem c7_witness : (bundleOf instB 1).pscore.headI = 1 :=
  (c7_boundary_single_support instB 1 (bundleOf instB 1)
      (by decide) (by decide)).2
    ((bundleOf instB 1).pscore.headI) (by decide)

/-- Each Binomial(1, p) model draw is zero or one. -/
theorem binomialOneDraw_mem (p : ℚ) (seed : ℤ) (k : ℕ) :
    binomialOneDraw p seed k = 0 ∨ binomialOneDraw p seed k = 1 := by
  unfold binomialOneDraw
  split
  · exact Or.inr rfl
  · exact Or.inl rfl

/-- Claim C8: binary rewards are Binomial(1, expected_rewards_factual)
draws and hence lie in `{0, 1}`; continuous rewards are
Normal(expected_rewards_factual, reward_std) draws. -/
theorem c8_reward_realization (inst : Instance) (n : ℤ) (b : Bundle)
    (hb : (obtain_batch_bandit_feedback inst n).1 = Except.ok b) :
    (inst.cfg.reward_type = RewardType.binary →
      (b.reward = List.ofFn fun r : Fin n.toNat =>
          binomialOneDraw (expected_rewards_factual inst n.toNat r)
            inst.cfg.random_state (cGumbel inst n.toNat + r.1))
      ∧ ∀ x ∈ b.reward, x = 0 ∨ x = 1)
    ∧ (inst.cfg.reward_type = RewardType.continuous →
      b.reward = List.ofFn fun r : Fin n.toNat =>
        normalDraw (expected_rewards_factual inst n.toNat r)
          inst.cfg.reward_std inst.cfg.random_state
          (cGumbel inst n.toNat + r.1)) := by
  unfold obtain_batch_bandit_feedback at hb
  by_cases hn : 1 ≤ n
  · rw [if_pos hn] at hb
    simp only [Except.ok.injEq] at hb
    subst hb
    constructor
    · intro hbt
      have hrw : (assembleBundle inst n.toNat).reward
          = List.ofFn fun r : Fin n.toNat =>
              binomialOneDraw (expected_rewards_factual inst n.toNat r)
                inst.cfg.random_state (cGumbel inst n.toNat + r.1) := by
        unfold assembleBundle rewards
        simp only [hbt]
      refine ⟨hrw, ?_⟩
      rw [hrw, List.forall_mem_ofFn_iff]
      intro r
      exact binomialOneDraw_mem _ _ _
    · intro hbt
      unfold assembleBundle rewards
      simp only [hbt]
  · rw [if_neg hn] at hb
    exact absurd hb (by simp)

set_option maxRecDepth 40000 in
/-- Witness for C8 at a concrete binary instance and a concrete
continuous instance. -/
theorem c8_witness :
    ((bundleOf inst0 2).reward.headI = 0 ∨ (bundleOf inst0 2).reward.headI = 1)
    ∧ (bundleOf instC 2).reward = List.ofFn fun r : Fin (2 : ℤ).toNat =>
        normalDraw (expected_rewards_factual instC (2 : ℤ).toNat r)
          instC.cfg.reward_std instC.cfg.random_state
          (cGumbel instC (2 : ℤ).toNat + r.1) :=
  ⟨((c8_reward_realization inst0 2 (bundleOf inst0 2) (by decide)).1 rfl).2
      ((bundleOf inst0 2).reward.headI) (by decide),
   (c8_reward_realization instC 2 (bundleOf instC 2) (by decide)).2 rfl⟩

/-- Claim C9: `obtain_batch_bandit_feedback` validates `n_rounds` on
every call: any value below one raises before any draw with the instance
unchanged, and any positive value yields a bundle whose context matrix
has shape `(n_rounds, dim_context)`. -/
theorem c9_n_rounds_validation (inst : Instance) (n : ℤ) :
    (n < 1 →
      obtain_batch_bandit_feedback inst n
        = (Except.error "n_rounds must be an integer larger than or equal to 1",
            inst))
    ∧ (1 ≤ n →
      (obtain_batch_bandit_feedback inst n).1
          = Except.ok (assembleBundle inst n.toNat)
        ∧ (assembleBundle inst n.toNat).context.length = n.toNat
        ∧ ∀ row ∈ (assembleBundle inst n.toNat).context,
            row.length = inst.cfg.dim_context) := by
  constructor
  · intro hn
    unfold obtain_batch_bandit_feedback
    rw [if_neg (by omega)]
  · intro hn
    refine ⟨?_, ?_, ?_⟩
    · unfold obtain_batch_bandit_feedback
      rw [if_pos hn]
    · unfold assembleBundle
      simp
    · unfold assembleBundle
      simp [List.forall_mem_ofFn_iff]

set_option maxRecDepth 40000 in
/-- Witness for C9: a rejected call and an accepted call at concrete
inputs. -/
theorem c9_witness :
    obtain_batch_bandit_feedback inst0 0
        = (Except.error "n_rounds must be an integer larger than or equal to 1",
            inst0)
    ∧ (obtain_batch_bandit_feedback inst0 2).1
        = Except.ok (assembleBundle inst0 (2 : ℤ).toNat)
    ∧ (assembleBundle inst0 (2 : ℤ).toNat).context.length = (2 : ℤ).toNat :=
  ⟨(c9_n_rounds_validation inst0 0).1 (by decide),
   ((c9_n_rounds_validation inst0 2).2 (by decide)).1,
   ((c9_n_rounds_validation inst0 2).2 (by decide)).2.1⟩

/-! ### Dirichlet-importance facts and claim C10 -/

/-- Unnormalized Dirichlet masses are strictly positive. -/
theorem dirichletRaw_pos (inst : Instance) (R : ℕ) (i : ℕ) :
    0 < dirichletRaw inst R i := by
  unfold dirichletRaw
  have := unitVal_nonneg inst.cfg.random_state (cAlpha inst R + i)
  linarith

/-- The total unnormalized Dirichlet mass is strictly positive when at
least one dimension is relevant. -/
theorem dirichletDenom_pos (inst : Instance) (R : ℕ)
    (h : 0 < nRelevant inst) : 0 < dirichletDenom inst R := by
  unfold dirichletDenom
  exact Finset.sum_pos (fun i _ => dirichletRaw_pos inst R i)
    (by rwa [Finset.nonempty_range_iff, ← Nat.pos_iff_ne_zero])

/-- Importance weights vanish on all internally irrelevant slots. -/
theorem importance_eq_zero_of_lt (inst : Instance) (R : ℕ) (dn : ℕ)
    (h : dn < inst.n_irrelevant_cat_dim) : catImportanceNat inst R dn = 0 := by
  unfold catImportanceNat
  rw [if_neg (not_le.mpr h)]

/-- Sums of importance-weighted quantities reduce to the relevant
dimensions: the irrelevant slots (including the reserved slot 0)
contribute nothing. -/
theorem importance_weighted_sum (inst : Instance) (R : ℕ)
    (g : Fin inst.n_cat_dim → ℚ) :
    ∑ d, cat_dim_importance inst R d * g d
      = ∑ d ∈ Finset.univ.filter
          (fun d : Fin inst.n_cat_dim => inst.n_irrelevant_cat_dim ≤ d.1),
          cat_dim_importance inst R d * g d := by
  rw [← Finset.sum_filter_add_sum_filter_not Finset.univ
    (fun d : Fin inst.n_cat_dim => inst.n_irrelevant_cat_dim ≤ d.1)]
  have hz : ∑ d ∈ Finset.univ.filter
      (fun d : Fin inst.n_cat_dim => ¬ inst.n_irrelevant_cat_dim ≤ d.1),
      cat_dim_importance inst R d * g d = 0 := by
    apply Finset.sum_eq_zero
    intro d hd
    have h2 := (Finset.mem_filter.mp hd).2
    rw [show cat_dim_importance inst R d = 0 from
      importance_eq_zero_of_lt inst R d.1 (not_le.mp h2), zero_mul]
  rw [hz, add_zero]

/-- Counterexample to claim C10 as stated: with
`n_irrelevant_cat_dim = n_cat_dim` (all user dimensions irrelevant, a
configuration construction accepts), the Dirichlet slice is empty and the
importance weights sum to 0, not 1. -/
theorem c10_counterexample :
    ¬ (∑ d, cat_dim_importance instX 1 d = 1) := by decide

/-- Claim C10 as amended: the reserved padding slot (index 0) always has
importance exactly 0, every internally irrelevant slot has importance 0,
importances are nonnegative, `q_x_a` and `expected_rewards_factual` are
importance-weighted sums over the relevant dimensions only (so slot 0
contributes nothing), and — provided at least one user dimension is
relevant (`n_irrelevant_cat_dim < n_cat_dim`) — the importance weights
sum to 1. -/
theorem c10_padding_slot_inert (inst : Instance) (R : ℕ) :
    (∀ d : Fin inst.n_cat_dim, d.1 = 0 → cat_dim_importance inst R d = 0)
    ∧ (∀ d : Fin inst.n_cat_dim, d.1 < inst.n_irrelevant_cat_dim →
        cat_dim_importance inst R d = 0)
    ∧ (∀ d, 0 ≤ cat_dim_importance inst R d)
    ∧ (∀ (r : Fin R) (a : Fin inst.cfg.n_actions),
        q_x_a inst R r a
          = ∑ d ∈ Finset.univ.filter
              (fun d : Fin inst.n_cat_dim => inst.n_irrelevant_cat_dim ≤ d.1),
              cat_dim_importance inst R d * qxaRaw inst R r a d)
    ∧ (∀ r : Fin R,
        expected_rewards_factual inst R r
          = ∑ d ∈ Finset.univ.filter
              (fun d : Fin inst.n_cat_dim => inst.n_irrelevant_cat_dim ≤ d.1),
              cat_dim_importance inst R d
                * q_x_e inst R r (action_embed inst R r d) d)
    ∧ (inst.cfg.n_irrelevant_cat_dim < inst.cfg.n_cat_dim →
        ∑ d, cat_dim_importance inst R d = 1) := by
  have hI := inst.h_irr
  have hD := inst.h_cat
  refine ⟨?_, ?_, ?_, ?_, ?_, ?_⟩
  · intro d hd
    exact importance_eq_zero_of_lt inst R d.1 (by omega)
  · intro d hd
    exact importance_eq_zero_of_lt inst R d.1 hd
  · intro d
    show 0 ≤ catImportanceNat inst R d.1
    unfold catImportanceNat
    split
    · rename_i hle
      have hrel : 0 < nRelevant inst := by
        have := d.isLt
        unfold nRelevant
        omega
      exact le_of_lt (div_pos (dirichletRaw_pos inst R _)
        (dirichletDenom_pos inst R hrel))
    · exact le_refl 0
  · intro r a
    exact importance_weighted_sum inst R _
  · intro r
    exact importance_weighted_sum inst R _
  · intro hrel
    have hirrD : inst.n_irrelevant_cat_dim ≤ inst.n_cat_dim := by omega
    have hmpos : 0 < nRelevant inst := by
      unfold nRelevant
      omega
    rw [show (∑ d, cat_dim_importance inst R d)
        = ∑ i ∈ Finset.range inst.n_cat_dim, catImportanceNat inst R i from
      Fin.sum_univ_eq_sum_range _ _]
    rw [Finset.range_eq_Ico,
      ← Finset.sum_Ico_consecutive _ (Nat.zero_le _) hirrD]
    have hz : ∑ i ∈ Finset.Ico 0 inst.n_irrelevant_cat_dim,
        catImportanceNat inst R i = 0 := by
      apply Finset.sum_eq_zero
      intro i hi
      exact importance_eq_zero_of_lt inst R i (Finset.mem_Ico.mp hi).2
    rw [hz, zero_add, Finset.sum_Ico_eq_sum_range]
    have hterm : ∀ i ∈ Finset.range (inst.n_cat_dim - inst.n_irrelevant_cat_dim),
        catImportanceNat inst R (inst.n_irrelevant_cat_dim + i)
          = dirichletRaw inst R i / dirichletDenom inst R := by
      intro i _
      unfold catImportanceNat
      rw [if_pos (Nat.le_add_right _ _), Nat.add_sub_cancel_left]
    rw [Finset.sum_congr rfl hterm, ← Finset.sum_div]
    exact div_self (dirichletDenom_pos inst R hmpos).ne'

set_option maxRecDepth 40000 in
/-- Witness for the amended C10 at a concrete instance. -/
theorem c10_witness :
    cat_dim_importance inst0 2 ⟨0, by decide⟩ = 0
    ∧ ∑ d, cat_dim_importance inst0 2 d = 1 :=
  ⟨(c10_padding_slot_inert inst0 2).1 ⟨0, by decide⟩ rfl,
   (c10_padding_slot_inert inst0 2).2.2.2.2.2 (by decide)⟩

end SyntheticEmbed
